import Mathlib

/-!
Verification of the `analyze_trading_profit` routine of `server.py`
(same-day trade profit analysis via closest-price matching).

The embedding models the routine's three stages — grouping, matching,
aggregation — as pure Lean functions.  Numbers handled as Python floats are
modelled as rationals (`ℚ`); Python's `round(x, 2)` is modelled as rounding
to the nearest multiple of 1/100 (the tie-breaking rule is irrelevant to the
properties proved here).  Timestamps are the raw ISO-8601 strings the code
compares lexicographically; Lean's `String` order is the same
code-point-wise lexicographic order.  Python `dict`s preserve insertion
order, so the ticker grouping is an ordered association list, and Python's
`list.sort` is stable, so sorting is modelled by `List.insertionSort` with a
non-strict key relation (which is stable in the same sense).
-/

namespace RBMCP

/-- A Python value fed to `float(...)`: either a value that converts to a
number, or one (e.g. `None` or a malformed string) on which `float` raises
`ValueError`/`TypeError`. -/
inductive PyVal where
  | num (q : ℚ)
  | invalid
deriving DecidableEq

/-- Models `float(d.get(key, 0))`: an absent key defaults to `0`, which
converts; a present but invalid value raises (modelled as `none`). -/
def parseNum : Option PyVal → Option ℚ
  | none => some 0
  | some (.num q) => some q
  | some .invalid => none

/-- One entry of an order's `executions` list; only its `fees` field is
read (`float(e.get('fees', 0))`). -/
structure Execution where
  fees : Option PyVal
deriving DecidableEq

/-- A raw brokerage order as consumed by `analyze_trading_profit`.
`created_at` models `order.get('created_at', '')`; fields read with a
plain `.get(key)` (possibly absent) are `Option`s. -/
structure RawOrder where
  id : Option String
  created_at : String
  state : Option String
  side : Option String
  instrument : String
  average_price : Option PyVal
  quantity : Option PyVal
  executions : List Execution
  last_transaction_at : Option String
deriving DecidableEq

/-- The structured trade record built per order for the matching stage. -/
structure TradeRecord where
  id : Option String
  price : ℚ
  quantity : ℚ
  remaining_qty : ℚ
  fees : ℚ
  timestamp : Option String
  created_at : String
deriving DecidableEq

/-- Models `sum([float(e.get('fees', 0)) for e in executions])`, failing if
any single conversion fails (the summation order is irrelevant in `ℚ`). -/
def sumFees : List Execution → Option ℚ
  | [] => some 0
  | e :: es => do
    let f ← parseNum e.fees
    let rest ← sumFees es
    pure (f + rest)

/-- The `try` block converting one order to a trade record: parse
`average_price`, `quantity`, and the execution fees; any conversion
failure skips the order. -/
def parseRecord (o : RawOrder) : Option TradeRecord := do
  let price ← parseNum o.average_price
  let quantity ← parseNum o.quantity
  let fees ← sumFees o.executions
  pure { id := o.id, price := price, quantity := quantity,
         remaining_qty := quantity, fees := fees,
         timestamp := o.last_transaction_at, created_at := o.created_at }

/-- One ticker's `{"buys": [...], "sells": [...]}` group. -/
structure Group where
  buys : List TradeRecord
  sells : List TradeRecord
deriving DecidableEq

/-- The `ticker_groups` dict from ticker to group: Python dicts preserve
insertion order, so an ordered association list (new keys appended). -/
abbrev GroupMap := List (String × Group)

/-- Replace the value at key `t` in place (first occurrence). -/
def updateGroup : GroupMap → String → (Group → Group) → GroupMap
  | [], _, _ => []
  | (k, g) :: rest, t, f =>
      if k = t then (k, f g) :: rest else (k, g) :: updateGroup rest t f

/-- Dict lookup, `ticker_groups[t]` as an `Option`. -/
def lookupGroup (gm : GroupMap) (t : String) : Option Group :=
  match gm with
  | [] => none
  | (k, g) :: rest => if k = t then some g else lookupGroup rest t

/-- The records stored under ticker `t` (empty when the key is absent). -/
def groupAt (gm : GroupMap) (t : String) : Group :=
  (lookupGroup gm t).getD ⟨[], []⟩

/-- The `if ticker not in ticker_groups:` step: install the empty
`{"buys": [], "sells": []}` entry when the key is new. -/
def ensureGroup (gm : GroupMap) (t : String) : GroupMap :=
  if (lookupGroup gm t).isSome then gm else gm ++ [(t, ⟨[], []⟩)]

/-- The loop body over `filled_orders`: resolve the ticker, create the
group if the key is new, then parse the order and append it to the buys or
sells of its group — `side == 'buy'` selects buys, anything else selects
sells; a parse failure leaves the groups' records unchanged. -/
def processOrder (resolve : String → String) (gm : GroupMap) (o : RawOrder) :
    GroupMap :=
  let t := resolve o.instrument
  let gm' := ensureGroup gm t
  match parseRecord o with
  | none => gm'
  | some r =>
      if o.side = some "buy" then
        updateGroup gm' t (fun g => { g with buys := g.buys ++ [r] })
      else
        updateGroup gm' t (fun g => { g with sells := g.sells ++ [r] })

/-- Group all filled orders by ticker. -/
def buildGroups (resolve : String → String) (orders : List RawOrder) :
    GroupMap :=
  orders.foldl (processOrder resolve) []

/-- Models `round(x, 2)`: round to the nearest multiple of 1/100. -/
def round2 (q : ℚ) : ℚ := (round (q * 100) : ℤ) / 100

/-- A `matched_pairs` entry. -/
structure MatchedPair where
  buy_id : Option String
  sell_id : Option String
  quantity : ℚ
  buy_price : ℚ
  sell_price : ℚ
  profit : ℚ
  fees : ℚ
deriving DecidableEq

/-- The key order of `buys.sort(key=lambda x: x['created_at'])`. -/
def buyLE (a b : TradeRecord) : Prop := a.created_at ≤ b.created_at

instance : DecidableRel buyLE :=
  fun a b => inferInstanceAs (Decidable (a.created_at ≤ b.created_at))

instance : IsTotal TradeRecord buyLE := ⟨fun _ _ => le_total _ _⟩

instance : IsTrans TradeRecord buyLE := ⟨fun _ _ _ h h' => le_trans h h'⟩

/-- Models `buys.sort(key=lambda x: x['created_at'])` — stable ascending
sort. -/
def sortBuys (l : List TradeRecord) : List TradeRecord :=
  l.insertionSort buyLE

/-- The key order of `sells.sort(key=lambda x: x['price'], reverse=True)`
(Python's `reverse=True` keeps equal keys in original order). -/
def sellGE (a b : TradeRecord) : Prop := b.price ≤ a.price

instance : DecidableRel sellGE :=
  fun a b => inferInstanceAs (Decidable (b.price ≤ a.price))

instance : IsTotal TradeRecord sellGE := ⟨fun _ _ => le_total _ _⟩

instance : IsTrans TradeRecord sellGE := ⟨fun _ _ _ h h' => le_trans h' h⟩

/-- Models `sells.sort(key=lambda x: x['price'], reverse=True)` — stable
descending sort. -/
def sortSells (l : List TradeRecord) : List TradeRecord :=
  l.insertionSort sellGE

/-- Is this sell a candidate for the current buy: unmatched quantity left
and `sell['created_at'] > buy['created_at']`? -/
def eligible (buyCa : String) (s : TradeRecord) : Bool :=
  decide (0 < s.remaining_qty) && decide (buyCa < s.created_at)

/-- The `price_diffs` list: the `(index, |sell price − buy price|)` pairs
of the candidate sells, in sell-list order. -/
def buildDiffs (sells : List TradeRecord) (buyCa : String) (buyPrice : ℚ) :
    List (Nat × ℚ) :=
  ((sells.enum.filter (fun p => eligible buyCa p.2)).map
    (fun p => (p.1, |p.2.price - buyPrice|)))

/-- The key order of `price_diffs.sort(key=lambda x: x[1])`. -/
def diffLE (a b : Nat × ℚ) : Prop := a.2 ≤ b.2

instance : DecidableRel diffLE :=
  fun a b => inferInstanceAs (Decidable (a.2 ≤ b.2))

instance : IsTotal (Nat × ℚ) diffLE := ⟨fun _ _ => le_total _ _⟩

instance : IsTrans (Nat × ℚ) diffLE := ⟨fun _ _ _ h h' => le_trans h h'⟩

/-- Models `price_diffs.sort(key=lambda x: x[1])` followed by
`price_diffs[0][0]`: the index of the chosen sell, or `none` when there is
no candidate. -/
def selectSell (sells : List TradeRecord) (buyCa : String) (buyPrice : ℚ) :
    Option Nat :=
  (((buildDiffs sells buyCa buyPrice).insertionSort diffLE).head?).map
    (fun p => p.1)

/-- Build the emitted `matched_pairs` entry for one match. -/
def mkPair (buy sell : TradeRecord) (match_qty : ℚ) : MatchedPair :=
  let trade_profit := (sell.price - buy.price) * match_qty
  let buy_fee_portion := buy.fees * (match_qty / buy.quantity)
  let sell_fee_portion := sell.fees * (match_qty / sell.quantity)
  let total_fees := buy_fee_portion + sell_fee_portion
  let net_profit := trade_profit - total_fees
  { buy_id := buy.id, sell_id := sell.id, quantity := match_qty,
    buy_price := buy.price, sell_price := sell.price,
    profit := round2 net_profit, fees := round2 total_fees }

/-- The inner `while` loop matching one buy against the sells.  `buyQty` is
the loop-local `buy_qty` counter, `buy` carries the record's own
`remaining_qty`.  The loop terminates because every emitted match zeroes
either `buy_qty` or one sell's remaining quantity; `fuel` bounds the
iteration count (`sells.length + 1` always suffices). -/
def matchLoop (fuel : Nat) (buy : TradeRecord) (buyQty : ℚ)
    (sells : List TradeRecord) (pairs : List MatchedPair) :
    TradeRecord × List TradeRecord × List MatchedPair :=
  match fuel with
  | 0 => (buy, sells, pairs)
  | fuel + 1 =>
    if 0 < buyQty ∧ sells.any (fun s => decide (0 < s.remaining_qty)) then
      match selectSell sells buy.created_at buy.price with
      | none => (buy, sells, pairs)
      | some idx =>
        match sells.get? idx with
        | none => (buy, sells, pairs)
        | some sell =>
          let match_qty := min buyQty sell.remaining_qty
          if 0 < match_qty then
            let pair := mkPair buy sell match_qty
            let buy' := { buy with remaining_qty := buy.remaining_qty - match_qty }
            let sells' := sells.set idx
              { sell with remaining_qty := sell.remaining_qty - match_qty }
            matchLoop fuel buy' (buyQty - match_qty) sells' (pairs ++ [pair])
          else
            matchLoop fuel buy buyQty sells pairs
    else (buy, sells, pairs)

/-- The `for buy in buys` loop: match each buy in turn, threading the
mutated sells list and accumulating matched pairs. -/
def processBuys : List TradeRecord → List TradeRecord → List MatchedPair →
    List TradeRecord × List TradeRecord × List MatchedPair
  | [], sells, pairs => ([], sells, pairs)
  | b :: rest, sells, pairs =>
    let r1 := matchLoop (sells.length + 1) b b.remaining_qty sells pairs
    let r2 := processBuys rest r1.2.1 r1.2.2
    (r1.1 :: r2.1, r2.2.1, r2.2.2)

/-- The matching stage for one ticker group: sort, then match every buy.
Returns the final buys, final sells, and the emitted matched pairs. -/
def matchTicker (g : Group) :
    List TradeRecord × List TradeRecord × List MatchedPair :=
  processBuys (sortBuys g.buys) (sortSells g.sells) []

/-- One entry of `results`. -/
structure TickerResult where
  ticker : String
  buy_orders : Nat
  sell_orders : Nat
  matched_trades : Nat
  buy_shares : ℚ
  sell_shares : ℚ
  matched_shares : ℚ
  fees : ℚ
  profit : ℚ
  avg_profit_per_share : ℚ
  matches_ : List MatchedPair
deriving DecidableEq

/-- The raw (unrounded) per-ticker profit `sum(m['profit'] for m in
matched_pairs)` that is accumulated into `total_profit`. -/
def tickerProfit (pairs : List MatchedPair) : ℚ :=
  (pairs.map (fun m => m.profit)).sum

/-- Build one ticker's `results` entry from the post-matching buys, sells,
and matched pairs. -/
def mkTickerResult (t : String) (buys sells : List TradeRecord)
    (pairs : List MatchedPair) : TickerResult :=
  let ticker_profit := tickerProfit pairs
  let buy_shares := (buys.map (fun b => b.quantity)).sum
  let sell_shares := (sells.map (fun s => s.quantity)).sum
  let matched_shares := (pairs.map (fun m => m.quantity)).sum
  let avg_profit_per_share := if 0 < matched_shares then
    ticker_profit / matched_shares else 0
  { ticker := t, buy_orders := buys.length, sell_orders := sells.length,
    matched_trades := pairs.length, buy_shares := buy_shares,
    sell_shares := sell_shares, matched_shares := matched_shares,
    fees := round2 ((pairs.map (fun m => m.fees)).sum),
    profit := round2 ticker_profit,
    avg_profit_per_share := round2 avg_profit_per_share,
    matches_ := pairs }

/-- The `for ticker, trades in ticker_groups.items()` loop: accumulate the
`results` list, the running raw `total_profit`, and the matched-pair
count, in dict insertion order. -/
def processGroups (gm : GroupMap) : List TickerResult × ℚ × Nat :=
  gm.foldl
    (fun acc tg =>
      let (buys', sells', pairs) := matchTicker tg.2
      (acc.1 ++ [mkTickerResult tg.1 buys' sells' pairs],
       acc.2.1 + tickerProfit pairs, acc.2.2 + pairs.length))
    ([], 0, 0)

/-- The key order of `results.sort(key=lambda x: x['profit'],
reverse=True)`. -/
def resGE (a b : TickerResult) : Prop := b.profit ≤ a.profit

instance : DecidableRel resGE :=
  fun a b => inferInstanceAs (Decidable (b.profit ≤ a.profit))

instance : IsTotal TickerResult resGE := ⟨fun _ _ => le_total _ _⟩

instance : IsTrans TickerResult resGE := ⟨fun _ _ _ h h' => le_trans h' h⟩

/-- Models `results.sort(key=lambda x: x['profit'], reverse=True)` — stable
descending sort. -/
def sortResults (l : List TickerResult) : List TickerResult :=
  l.insertionSort resGE

/-- The success payload returned by `analyze_trading_profit`. -/
structure ProfitReport where
  date : String
  total_profit : ℚ
  ticker_results : List TickerResult
  matched_trades : Nat
  trade_count : Nat
  algorithm : String
deriving DecidableEq

/-- The value returned by `analyze_trading_profit`: either a
`"status": "success"` report or a `"status": "error"` message. -/
inductive AnalyzeResult where
  | success (report : ProfitReport)
  | error (message : String)
deriving DecidableEq

/-- The filled orders considered for `date`:
`o.get('created_at', '').startswith(date)` — a prefix test on the
character sequence — and `state == 'filled'`. -/
def filledOrders (orders : List RawOrder) (date : String) : List RawOrder :=
  (orders.filter (fun o => date.data.isPrefixOf o.created_at.data)).filter
    (fun o => o.state = some "filled")

/-- The body of the `try` block once the order list is in hand: group,
match, aggregate, and sort. -/
def buildReport (resolve : String → String) (orders : List RawOrder)
    (date : String) : ProfitReport :=
  let filled := filledOrders orders date
  let gm := buildGroups resolve filled
  let acc := processGroups gm
  { date := date, total_profit := round2 acc.2.1,
    ticker_results := sortResults acc.1,
    matched_trades := acc.2.2,
    trade_count := filled.length,
    algorithm := "closest_price_matching" }

/-- The whole of `analyze_trading_profit(date)`.  The order fetch
(`rh.orders.get_all_stock_orders()`) and the ticker resolver
(`get_ticker_from_instrument`) are the external collaborators; a fetch
failure is the exception caught by the enclosing `try`/`except`, which
returns the status-tagged error result. -/
def analyze_trading_profit (resolve : String → String)
    (fetch : Except String (List RawOrder)) (date : String) : AnalyzeResult :=
  match fetch with
  | .error e => .error ("Failed to analyze trading profit: " ++ e)
  | .ok orders => .success (buildReport resolve orders date)

/-- The first entry of a successful report's `ticker_results`. -/
def firstTicker : AnalyzeResult → Option TickerResult
  | .success rep => rep.ticker_results.head?
  | .error _ => none

/-!  Concrete inputs used by witnesses and counterexamples.  -/

/-- A filled order with one execution, every field well-formed. -/
def mkOrder (idv ca side : String) (price qty fee : ℚ)
    (lta : Option String) : RawOrder :=
  { id := some idv, created_at := ca, state := some "filled",
    side := some side, instrument := "https://rh/instr/1",
    average_price := some (.num price), quantity := some (.num qty),
    executions := [⟨some (.num fee)⟩], last_transaction_at := lta }

/-- One buy (10 @ 100, fee 1) and one later sell (10 @ 105, fee 1): the
spec's scenario 1, matching fully with profit 48. -/
def demoOrders : List RawOrder :=
  [ mkOrder "B1" "2024-01-02T09:30:00Z" "buy" 100 10 1
      (some "2024-01-02T09:30:05Z"),
    mkOrder "S1" "2024-01-02T10:00:00Z" "sell" 105 10 1
      (some "2024-01-02T10:00:05Z") ]

/-- A buy created at 10:00 and a sell created at 11:00 whose
`last_transaction_at` is 09:00 — before the buy was created. -/
def earlyTransactOrders : List RawOrder :=
  [ mkOrder "B1" "2024-01-02T10:00:00Z" "buy" 100 5 0
      (some "2024-01-02T10:00:01Z"),
    mkOrder "S1" "2024-01-02T11:00:00Z" "sell" 101 5 0
      (some "2024-01-02T09:00:00Z") ]

/-- A matched ticker whose raw profit is 1 over 3 matched shares, so the
exact per-share average 1/3 is not representable in 2 decimal places. -/
def thirdAvgOrders : List RawOrder :=
  [ mkOrder "B1" "2024-01-02T09:30:00Z" "buy" 100 3 (1/2) none,
    mkOrder "S1" "2024-01-02T10:00:00Z" "sell" (201/2) 3 0 none ]

/-- The claim of temporal validity as the spec states it, decidably: every
emitted matched pair, joined to its source orders by id, has the sell's
`last_transaction_at` (when present) strictly after the buy's
`created_at`. -/
def specTemporalValidity (resolve : String → String)
    (orders : List RawOrder) (date : String) : Bool :=
  match analyze_trading_profit resolve (.ok orders) date with
  | .error _ => true
  | .success rep =>
    rep.ticker_results.all fun tr => tr.matches_.all fun m =>
      orders.all fun bo => orders.all fun so =>
        !(bo.id == m.buy_id && so.id == m.sell_id) ||
        (match so.last_transaction_at with
         | none => true
         | some ts => decide (bo.created_at < ts))

end RBMCP

namespace RBMCP

/-!  Claim theorems.  -/

/-- C9: `analyze_trading_profit` is deterministic — two invocations given
identical collaborator resolutions, identical fetched order lists, and an
identical date produce identical results (same ordering, same rounding),
because the routine is a pure function of those inputs: dict iteration is
insertion-ordered and every sort is stable. -/
theorem analyze_deterministic (resolve resolve' : String → String)
    (fetch fetch' : Except String (List RawOrder)) (date date' : String)
    (h1 : resolve = resolve') (h2 : fetch = fetch') (h3 : date = date') :
    analyze_trading_profit resolve fetch date =
      analyze_trading_profit resolve' fetch' date' := by
  subst h1; subst h2; subst h3; rfl

theorem analyze_deterministic_witness :
    analyze_trading_profit (fun _ => "AAPL") (.ok demoOrders) "2024-01-02" =
      analyze_trading_profit (fun _ => "AAPL") (.ok demoOrders) "2024-01-02" :=
  analyze_deterministic _ _ _ _ _ _ rfl rfl rfl

/-- C6: `analyze_trading_profit` never raises: when the order fetch fails
it returns the status-tagged error result with a descriptive message, and
whenever the order list is retrievable it returns a success report (the
body after the fetch is total, so no partial report can escape). -/
theorem analyze_never_raises (resolve : String → String)
    (fetch : Except String (List RawOrder)) (date : String) :
    (∀ e, fetch = .error e →
      analyze_trading_profit resolve fetch date =
        .error ("Failed to analyze trading profit: " ++ e)) ∧
    (∀ orders, fetch = .ok orders →
      analyze_trading_profit resolve fetch date =
        .success (buildReport resolve orders date)) := by
  constructor
  · intro e h; subst h; rfl
  · intro orders h; subst h; rfl

theorem analyze_never_raises_witness :
    analyze_trading_profit (fun _ => "AAPL") (.error "timeout") "2024-01-02" =
      .error ("Failed to analyze trading profit: " ++ "timeout") ∧
    analyze_trading_profit (fun _ => "AAPL") (.ok demoOrders) "2024-01-02" =
      .success (buildReport (fun _ => "AAPL") demoOrders "2024-01-02") :=
  ⟨(analyze_never_raises (fun _ => "AAPL") (.error "timeout")
      "2024-01-02").1 "timeout" rfl,
   (analyze_never_raises (fun _ => "AAPL") (.ok demoOrders)
      "2024-01-02").2 demoOrders rfl⟩

/-- C3: every emitted matched pair allocates fees proportionally — its
`fees` field is `buy.fees·(q/buy.quantity) + sell.fees·(q/sell.quantity)`
rounded to 2 decimals, and its `profit` field is
`(sell.price − buy.price)·q` minus the unrounded allocated fee total,
rounded to 2 decimals at emission time; the intermediates are exact
(unrounded) values. -/
theorem matched_pair_fees_profit (b s : TradeRecord) (q : ℚ) :
    (mkPair b s q).fees =
      round2 (b.fees * (q / b.quantity) + s.fees * (q / s.quantity)) ∧
    (mkPair b s q).profit =
      round2 ((s.price - b.price) * q -
        (b.fees * (q / b.quantity) + s.fees * (q / s.quantity))) :=
  ⟨rfl, rfl⟩

/-- C7 (amended): the reported `avg_profit_per_share` is `0` when
`matched_shares` is `0`, and otherwise is the ticker's raw profit divided
by `matched_shares`, rounded to 2 decimal places like every other reported
figure; the division is guarded, so no division by zero occurs. -/
theorem avg_profit_per_share_safe (t : String)
    (buys sells : List TradeRecord) (pairs : List MatchedPair) :
    ((mkTickerResult t buys sells pairs).matched_shares = 0 →
      (mkTickerResult t buys sells pairs).avg_profit_per_share = 0) ∧
    (0 < (mkTickerResult t buys sells pairs).matched_shares →
      (mkTickerResult t buys sells pairs).avg_profit_per_share =
        round2 (tickerProfit pairs /
          (mkTickerResult t buys sells pairs).matched_shares)) := by
  constructor
  · intro h
    simp only [mkTickerResult] at h ⊢
    rw [if_neg (by rw [h]; exact lt_irrefl 0)]
    simp [round2]
  · intro h
    simp only [mkTickerResult] at h ⊢
    rw [if_pos h]

theorem avg_profit_per_share_safe_witness :
    (mkTickerResult "T" [] [] []).avg_profit_per_share = 0 ∧
    (0 < (mkTickerResult "T" [] []
        [⟨some "B1", some "S1", 2, 100, 101, 2, 0⟩]).matched_shares ∧
      (mkTickerResult "T" [] []
          [⟨some "B1", some "S1", 2, 100, 101, 2, 0⟩]).avg_profit_per_share =
        round2 (tickerProfit [⟨some "B1", some "S1", 2, 100, 101, 2, 0⟩] /
          (mkTickerResult "T" [] []
            [⟨some "B1", some "S1", 2, 100, 101, 2, 0⟩]).matched_shares)) :=
  ⟨(avg_profit_per_share_safe "T" [] [] []).1 (by simp [mkTickerResult]),
   by norm_num [mkTickerResult],
   (avg_profit_per_share_safe "T" [] []
      [⟨some "B1", some "S1", 2, 100, 101, 2, 0⟩]).2
      (by norm_num [mkTickerResult])⟩

/-- C7 counterexample: on a ticker with raw profit `1` over `3` matched
shares, the reported `avg_profit_per_share` is the rounded `0.33`, not the
exact quotient `1/3` that the claim's wording ("equals the ticker's profit
divided by its matched_shares") would require. -/
theorem avg_profit_rounding_counterexample :
    (firstTicker (analyze_trading_profit (fun _ => "TST")
        (.ok thirdAvgOrders) "2024-01-02")).map
        (fun t => (t.matched_shares, t.profit, t.avg_profit_per_share)) =
      some (3, 1, 33/100) ∧ (33 / 100 : ℚ) ≠ 1 / 3 := by
  constructor
  · have h1 : ("2024-01-02T09:30:00Z" : String) < "2024-01-02T10:00:00Z" := by
      rw [String.lt_iff_toList_lt]; decide
    norm_num [analyze_trading_profit, buildReport, filledOrders, buildGroups,
      thirdAvgOrders, mkOrder, processOrder, parseRecord, parseNum, sumFees,
      lookupGroup, updateGroup, processGroups, matchTicker, sortBuys,
      sortSells, List.insertionSort, List.orderedInsert, processBuys,
      matchLoop, selectSell, buildDiffs, eligible, List.enum, List.enumFrom,
      mkPair, round2, mkTickerResult, tickerProfit, sortResults, firstTicker,
      h1, round_eq, List.filter, List.isPrefixOf, List.all]
  · norm_num

end RBMCP

namespace RBMCP

/-!  Lemmas about the closest-price selection.  -/

/-- The head of the stable sort of an index-increasing `(index, diff)` list
is the first minimum: it attains the least diff, and among equal diffs the
least index. -/
theorem head_sorted_diffs :
    ∀ (l : List (Nat × ℚ)), l.Pairwise (fun a b => a.1 < b.1) →
      ∀ x, (l.insertionSort diffLE).head? = some x →
        x ∈ l ∧ ∀ y ∈ l, x.2 < y.2 ∨ (x.2 = y.2 ∧ x.1 ≤ y.1)
  | [], _, x, hx => by simp [List.insertionSort] at hx
  | a :: l, hp, x, hx => by
    obtain ⟨ha, hl⟩ := List.pairwise_cons.mp hp
    rw [List.insertionSort] at hx
    cases hs : l.insertionSort diffLE with
    | nil =>
      have hl0 : l = [] := by
        have hlen := List.length_insertionSort diffLE l
        rw [hs] at hlen
        exact List.length_eq_zero.mp hlen.symm
      subst hl0
      rw [hs] at hx
      simp only [List.orderedInsert, List.head?] at hx
      obtain rfl : a = x := by injection hx
      refine ⟨List.mem_singleton_self a, ?_⟩
      intro y hy
      obtain rfl : y = a := List.mem_singleton.mp hy
      exact Or.inr ⟨rfl, le_refl _⟩
    | cons b tl =>
      rw [hs] at hx
      have hb := head_sorted_diffs l hl b (by rw [hs]; rfl)
      by_cases hab : diffLE a b
      · rw [List.orderedInsert, if_pos hab] at hx
        obtain rfl : a = x := by injection hx
        refine ⟨List.mem_cons_self a l, ?_⟩
        intro y hy
        rcases List.mem_cons.mp hy with hya | hyl
        · rw [hya]
          exact Or.inr ⟨rfl, le_refl _⟩
        · have h2 := hb.2 y hyl
          have hby : b.2 ≤ y.2 := by
            rcases h2 with h | ⟨h, _⟩
            · exact le_of_lt h
            · exact le_of_eq h
          have hay : a.2 ≤ y.2 := le_trans (show a.2 ≤ b.2 from hab) hby
          rcases lt_or_eq_of_le hay with h | h
          · exact Or.inl h
          · exact Or.inr ⟨h, le_of_lt (ha y hyl)⟩
      · rw [List.orderedInsert, if_neg hab] at hx
        obtain rfl : b = x := by injection hx
        refine ⟨List.mem_cons_of_mem _ hb.1, ?_⟩
        intro y hy
        rcases List.mem_cons.mp hy with hya | hyl
        · rw [hya]
          exact Or.inl (lt_of_not_le (show ¬ a.2 ≤ b.2 from hab))
        · exact hb.2 y hyl

/-- The `price_diffs` list carries strictly increasing sell indices. -/
theorem buildDiffs_pairwise (sells : List TradeRecord) (ca : String)
    (p : ℚ) : (buildDiffs sells ca p).Pairwise (fun a b => a.1 < b.1) := by
  unfold buildDiffs
  refine List.Pairwise.map _ (fun a b h => h) ?_
  refine List.Pairwise.filter _ ?_
  rw [List.pairwise_iff_getElem]
  intro i j hi hj hij
  rw [List.getElem_enum, List.getElem_enum]
  exact hij

/-- Membership in `price_diffs` characterised: element `(i, d)` stands for
the candidate sell at index `i`, with `d` its absolute price difference. -/
theorem mem_buildDiffs {sells : List TradeRecord} {ca : String} {p : ℚ}
    {x : Nat × ℚ} :
    x ∈ buildDiffs sells ca p ↔
      ∃ s, sells.get? x.1 = some s ∧ eligible ca s = true ∧
        x.2 = |s.price - p| := by
  unfold buildDiffs
  rw [List.mem_map]
  constructor
  · rintro ⟨⟨i, s⟩, hmem, rfl⟩
    obtain ⟨henum, helig⟩ := List.mem_filter.mp hmem
    exact ⟨s, by
      rw [List.get?_eq_getElem?]
      exact List.mem_enum_iff_getElem?.mp henum, helig, rfl⟩
  · rintro ⟨s, hget, helig, hx⟩
    refine ⟨(x.1, s), List.mem_filter.mpr ⟨?_, helig⟩, ?_⟩
    · rw [List.mem_enum_iff_getElem?]
      rw [List.get?_eq_getElem?] at hget
      exact hget
    · obtain ⟨x1, x2⟩ := x
      simp only at hx
      rw [hx]

/-- What `selectSell` guarantees about the index it returns. -/
theorem selectSell_some {sells : List TradeRecord} {ca : String} {p : ℚ}
    {i : Nat} (h : selectSell sells ca p = some i) :
    ∃ s, sells.get? i = some s ∧ eligible ca s = true ∧
      ∀ j s', sells.get? j = some s' → eligible ca s' = true →
        |s.price - p| < |s'.price - p| ∨
          (|s.price - p| = |s'.price - p| ∧ i ≤ j) := by
  unfold selectSell at h
  obtain ⟨x, hx, rfl⟩ := Option.map_eq_some'.mp h
  obtain ⟨hxmem, hxmin⟩ := head_sorted_diffs _ (buildDiffs_pairwise sells ca p) x hx
  obtain ⟨s, hget, helig, hd⟩ := mem_buildDiffs.mp hxmem
  refine ⟨s, hget, helig, ?_⟩
  intro j s' hget' helig'
  have hymem : ((j, |s'.price - p|) : Nat × ℚ) ∈ buildDiffs sells ca p :=
    mem_buildDiffs.mpr ⟨s', hget', helig', rfl⟩
  have := hxmin _ hymem
  rw [← hd]
  exact this

end RBMCP

namespace RBMCP

/-- A single eligible sell candidate used to instantiate the selection
theorems: unmatched quantity and a `created_at` after the buy's. -/
def candSell : TradeRecord :=
  { id := some "S1", price := 101, quantity := 5, remaining_qty := 5,
    fees := 0, timestamp := none, created_at := "B" }

/-- C1 counterexample: the code's eligibility test compares the sell's
`created_at` with the buy's `created_at`; the stored `last_transaction_at`
(`timestamp`) is never consulted.  On `earlyTransactOrders` a pair is
emitted although the sell's `last_transaction_at` (09:00) is before the
buy's `created_at` (10:00), so the claimed property is false. -/
theorem temporal_validity_counterexample :
    specTemporalValidity (fun _ => "TST") earlyTransactOrders "2024-01-02" =
      false := by
  have h1 : ("2024-01-02T10:00:00Z" : String) < "2024-01-02T11:00:00Z" := by
    rw [String.lt_iff_toList_lt]; decide
  have h2 : ¬ ("2024-01-02T10:00:00Z" : String) < "2024-01-02T09:00:00Z" := by
    rw [String.lt_iff_toList_lt]; decide
  norm_num [specTemporalValidity, analyze_trading_profit, buildReport,
    filledOrders, buildGroups, earlyTransactOrders, mkOrder, processOrder,
    parseRecord, parseNum, sumFees, lookupGroup, updateGroup, processGroups,
    matchTicker, sortBuys, sortSells, List.insertionSort, List.orderedInsert,
    processBuys, matchLoop, selectSell, buildDiffs, eligible, List.enum,
    List.enumFrom, mkPair, round2, mkTickerResult, tickerProfit, sortResults,
    h1, h2, round_eq, List.filter, List.isPrefixOf, List.all]

/-- C1 (amended): the candidate set for a buy contains only sells with
`remaining_quantity > 0` and with **`created_at`** (not
`transaction_at`/`last_transaction_at`, which the matching never reads)
strictly after the buy's `created_at`; hence every emitted pair's sell was
created strictly after its buy. -/
theorem temporal_eligibility (sells : List TradeRecord) (ca : String)
    (p : ℚ) (i : Nat) (h : selectSell sells ca p = some i) :
    ∃ s, sells.get? i = some s ∧ 0 < s.remaining_qty ∧ ca < s.created_at := by
  obtain ⟨s, hget, helig, _⟩ := selectSell_some h
  rw [eligible, Bool.and_eq_true, decide_eq_true_eq, decide_eq_true_eq]
    at helig
  exact ⟨s, hget, helig.1, helig.2⟩

theorem temporal_eligibility_witness :
    ∃ s, [candSell].get? 0 = some s ∧ 0 < s.remaining_qty ∧
      ("A" : String) < s.created_at := by
  refine temporal_eligibility [candSell] "A" 100 0 ?_
  have hAB : ("A" : String) < "B" := by rw [String.lt_iff_toList_lt]; decide
  norm_num [selectSell, buildDiffs, eligible, candSell, List.enum,
    List.enumFrom, List.insertionSort, List.orderedInsert, List.filter, hAB]

/-- C4: per ticker, buys are processed in ascending `created_at` order (a
stable sort, hence also a permutation of the group's buys); each selected
sell is an eligible candidate achieving the minimum absolute price
difference, ties broken by least index in the sorted sell list; and the
loop then consumes `min(buy_qty, sell.remaining_qty)` from both sides,
emitting exactly that pair. -/
theorem closest_price_matching :
    (∀ l : List TradeRecord,
      List.Sorted buyLE (sortBuys l) ∧ (sortBuys l).Perm l) ∧
    (∀ sells ca p i, selectSell sells ca p = some i →
      ∃ s, sells.get? i = some s ∧ eligible ca s = true ∧
        ∀ j s', sells.get? j = some s' → eligible ca s' = true →
          |s.price - p| < |s'.price - p| ∨
            (|s.price - p| = |s'.price - p| ∧ i ≤ j)) ∧
    (∀ fuel buy buyQty sells pairs i sell,
      0 < buyQty →
      sells.any (fun s => decide (0 < s.remaining_qty)) = true →
      selectSell sells buy.created_at buy.price = some i →
      sells.get? i = some sell →
      0 < min buyQty sell.remaining_qty →
      matchLoop (fuel + 1) buy buyQty sells pairs =
        matchLoop fuel
          { buy with remaining_qty :=
              buy.remaining_qty - min buyQty sell.remaining_qty }
          (buyQty - min buyQty sell.remaining_qty)
          (sells.set i { sell with remaining_qty :=
              sell.remaining_qty - min buyQty sell.remaining_qty })
          (pairs ++ [mkPair buy sell (min buyQty sell.remaining_qty)])) := by
  refine ⟨fun l => ⟨List.sorted_insertionSort buyLE l,
    List.perm_insertionSort buyLE l⟩, fun _ _ _ _ h => selectSell_some h,
    ?_⟩
  intro fuel buy buyQty sells pairs i sell h1 h2 hsel hget hmin
  rw [matchLoop, if_pos ⟨h1, h2⟩, hsel]
  dsimp only
  rw [hget]
  dsimp only
  rw [if_pos hmin]

theorem closest_price_matching_witness :
    ∃ s, [candSell].get? 0 = some s ∧ eligible "A" s = true ∧
      ∀ j s', [candSell].get? j = some s' → eligible "A" s' = true →
        |s.price - (100 : ℚ)| < |s'.price - 100| ∨
          (|s.price - (100 : ℚ)| = |s'.price - 100| ∧ 0 ≤ j) := by
  refine closest_price_matching.2.1 [candSell] "A" 100 0 ?_
  have hAB : ("A" : String) < "B" := by rw [String.lt_iff_toList_lt]; decide
  norm_num [selectSell, buildDiffs, eligible, candSell, List.enum,
    List.enumFrom, List.insertionSort, List.orderedInsert, List.filter, hAB]

end RBMCP

namespace RBMCP

/-!  Lemmas about the grouping stage.  -/

theorem lookupGroup_append_of_none {gm : GroupMap} {t : String}
    (g : Group) (h : lookupGroup gm t = none) :
    lookupGroup (gm ++ [(t, g)]) t = some g := by
  induction gm with
  | nil => simp [lookupGroup]
  | cons kg rest ih =>
    obtain ⟨k, g'⟩ := kg
    rw [lookupGroup] at h
    by_cases hk : k = t
    · rw [if_pos hk] at h
      exact absurd h (by simp)
    · rw [if_neg hk] at h
      rw [List.cons_append, lookupGroup, if_neg hk]
      exact ih h

theorem lookupGroup_append_ne {gm : GroupMap} {t t' : String}
    (g : Group) (h : t' ≠ t) :
    lookupGroup (gm ++ [(t, g)]) t' = lookupGroup gm t' := by
  induction gm with
  | nil =>
    simp [lookupGroup, Ne.symm h]
  | cons kg rest ih =>
    obtain ⟨k, g'⟩ := kg
    rw [List.cons_append, lookupGroup, lookupGroup]
    by_cases hk : k = t'
    · rw [if_pos hk, if_pos hk]
    · rw [if_neg hk, if_neg hk]
      exact ih

theorem lookupGroup_ensureGroup_self (gm : GroupMap) (t : String) :
    lookupGroup (ensureGroup gm t) t = some (groupAt gm t) := by
  rw [ensureGroup, groupAt]
  cases h : lookupGroup gm t with
  | some g => simp [h]
  | none => simp [h, lookupGroup_append_of_none _ h]

theorem lookupGroup_ensureGroup_ne (gm : GroupMap) {t t' : String}
    (h : t' ≠ t) :
    lookupGroup (ensureGroup gm t) t' = lookupGroup gm t' := by
  rw [ensureGroup]
  cases hs : (lookupGroup gm t).isSome with
  | true => rw [if_pos (by simp [hs])]
  | false => rw [if_neg (by simp [hs])]; exact lookupGroup_append_ne _ h

theorem lookupGroup_updateGroup_self (gm : GroupMap) (t : String)
    (f : Group → Group) :
    lookupGroup (updateGroup gm t f) t = (lookupGroup gm t).map f := by
  induction gm with
  | nil => simp [lookupGroup, updateGroup]
  | cons kg rest ih =>
    obtain ⟨k, g⟩ := kg
    rw [updateGroup]
    by_cases hk : k = t
    · rw [if_pos hk, lookupGroup, if_pos hk, lookupGroup, if_pos hk,
        Option.map_some']
    · rw [if_neg hk, lookupGroup, if_neg hk, lookupGroup, if_neg hk]
      exact ih

theorem lookupGroup_updateGroup_ne (gm : GroupMap) {t t' : String}
    (f : Group → Group) (h : t' ≠ t) :
    lookupGroup (updateGroup gm t f) t' = lookupGroup gm t' := by
  induction gm with
  | nil => simp [lookupGroup, updateGroup]
  | cons kg rest ih =>
    obtain ⟨k, g⟩ := kg
    rw [updateGroup]
    by_cases hk : k = t
    · rw [if_pos hk, lookupGroup, lookupGroup,
        if_neg (by rw [hk]; exact Ne.symm h),
        if_neg (by rw [hk]; exact Ne.symm h)]
    · rw [if_neg hk, lookupGroup, lookupGroup]
      by_cases hk' : k = t'
      · rw [if_pos hk', if_pos hk']
      · rw [if_neg hk', if_neg hk']
        exact ih

theorem groupAt_ensureGroup (gm : GroupMap) (t t' : String) :
    groupAt (ensureGroup gm t) t' = groupAt gm t' := by
  by_cases h : t' = t
  · subst h
    rw [groupAt, lookupGroup_ensureGroup_self, Option.getD_some]
  · rw [groupAt, lookupGroup_ensureGroup_ne gm h, groupAt]

end RBMCP

namespace RBMCP

/-- A filled buy order whose `average_price` is present but not
convertible to a number (e.g. `None`): its parse fails. -/
def badOrder : RawOrder :=
  { mkOrder "X2" "2024-01-02T09:10:00Z" "buy" 0 0 0 none with
      average_price := some .invalid }

/-- An otherwise well-formed filled order whose `side` key is absent. -/
def sideNoneOrder : RawOrder :=
  { mkOrder "X1" "2024-01-02T09:00:00Z" "sell" 100 3 0 none with
      side := none }

/-- C2: an order whose numeric fields cannot be parsed (such as a present
but non-numeric `average_price`) contributes a record to no ticker group —
processing it leaves every group's contents unchanged (at most installing
an empty group for its ticker) — while `trade_count` still counts every
filled order for the date, parseable or not. -/
theorem unparseable_order_skipped :
    (∀ (resolve : String → String) (gm : GroupMap) (o : RawOrder),
      parseRecord o = none →
      ∀ t, groupAt (processOrder resolve gm o) t = groupAt gm t) ∧
    (∀ (resolve : String → String) (orders : List RawOrder) (date : String),
      (buildReport resolve orders date).trade_count =
        (filledOrders orders date).length) := by
  constructor
  · intro resolve gm o hp t
    rw [processOrder]
    simp only [hp]
    exact groupAt_ensureGroup gm _ t
  · intro resolve orders date
    rfl

theorem unparseable_order_skipped_witness :
    parseRecord badOrder = none ∧
    groupAt (processOrder (fun _ => "TST") [] badOrder) "TST" =
      groupAt [] "TST" ∧
    (buildReport (fun _ => "TST") (demoOrders ++ [badOrder])
        "2024-01-02").trade_count =
      (filledOrders (demoOrders ++ [badOrder]) "2024-01-02").length := by
  have hp : parseRecord badOrder = none := by
    simp [parseRecord, parseNum, badOrder, mkOrder]
  exact ⟨hp,
    (unparseable_order_skipped.1 (fun _ => "TST") [] badOrder hp) "TST",
    unparseable_order_skipped.2 (fun _ => "TST") (demoOrders ++ [badOrder])
      "2024-01-02"⟩

/-- C10 (implicit): every parsed filled order whose `side` is not exactly
`'buy'` — missing or malformed sides included — is appended to its ticker
group's sells list (and not to the buys), so no order is dropped on
account of its side value. -/
theorem non_buy_side_is_sell (resolve : String → String) (gm : GroupMap)
    (o : RawOrder) (r : TradeRecord) (hp : parseRecord o = some r)
    (hs : o.side ≠ some "buy") :
    (groupAt (processOrder resolve gm o) (resolve o.instrument)).sells =
      (groupAt gm (resolve o.instrument)).sells ++ [r] ∧
    (groupAt (processOrder resolve gm o) (resolve o.instrument)).buys =
      (groupAt gm (resolve o.instrument)).buys := by
  rw [processOrder]
  simp only [hp, if_neg hs]
  rw [groupAt, lookupGroup_updateGroup_self,
    lookupGroup_ensureGroup_self, Option.map_some', Option.getD_some]
  exact ⟨rfl, rfl⟩

theorem non_buy_side_is_sell_witness :
    parseRecord sideNoneOrder =
      some { id := some "X1", price := 100, quantity := 3,
             remaining_qty := 3, fees := 0, timestamp := none,
             created_at := "2024-01-02T09:00:00Z" } ∧
    (groupAt (processOrder (fun _ => "TST") [] sideNoneOrder) "TST").sells =
      (groupAt ([] : GroupMap) "TST").sells ++
        [{ id := some "X1", price := 100, quantity := 3,
           remaining_qty := 3, fees := 0, timestamp := none,
           created_at := "2024-01-02T09:00:00Z" }] ∧
    (groupAt (processOrder (fun _ => "TST") [] sideNoneOrder) "TST").buys =
      (groupAt ([] : GroupMap) "TST").buys := by
  have hp : parseRecord sideNoneOrder =
      some { id := some "X1", price := 100, quantity := 3,
             remaining_qty := 3, fees := 0, timestamp := none,
             created_at := "2024-01-02T09:00:00Z" } := by
    norm_num [parseRecord, parseNum, sumFees, sideNoneOrder, mkOrder]
  have h := non_buy_side_is_sell (fun _ => "TST") [] sideNoneOrder _ hp
    (by simp [sideNoneOrder, mkOrder])
  exact ⟨hp, h.1, h.2⟩

end RBMCP

namespace RBMCP

/-!  Stability of the final profit sort.  -/

theorem filter_orderedInsert_resGE (a : TickerResult)
    (l : List TickerResult) (p : ℚ) :
    (l.orderedInsert resGE a).filter (fun x => decide (x.profit = p)) =
      (a :: l).filter (fun x => decide (x.profit = p)) := by
  induction l with
  | nil => rfl
  | cons b t ih =>
    rw [List.orderedInsert]
    by_cases hab : resGE a b
    · rw [if_pos hab]
    · rw [if_neg hab]
      have hlt : a.profit < b.profit := lt_of_not_le hab
      by_cases hqa : a.profit = p
      · have hqb : ¬ b.profit = p := by
          rw [hqa] at hlt
          exact ne_of_gt hlt
        simp [List.filter_cons, ih, hqa, hqb]
      · simp [List.filter_cons, ih, hqa]

theorem filter_sortResults (l : List TickerResult) (p : ℚ) :
    (sortResults l).filter (fun x => decide (x.profit = p)) =
      l.filter (fun x => decide (x.profit = p)) := by
  unfold sortResults
  induction l with
  | nil => rfl
  | cons a t ih =>
    rw [List.insertionSort, filter_orderedInsert_resGE]
    simp only [List.filter_cons, ih]

/-- C8: in every successful report, `ticker_results` is non-increasing in
`profit` (`resGE` sortedness), is a permutation of the per-ticker results
in dict encounter order, and the sort is stable: for every profit value,
the subsequence of results having that profit is exactly the one of the
unsorted list, in the same (encounter) order. -/
theorem ticker_results_sorted (resolve : String → String)
    (orders : List RawOrder) (date : String) (rep : ProfitReport)
    (h : analyze_trading_profit resolve (.ok orders) date = .success rep) :
    List.Sorted resGE rep.ticker_results ∧
    rep.ticker_results.Perm
      (processGroups (buildGroups resolve (filledOrders orders date))).1 ∧
    ∀ p, rep.ticker_results.filter (fun x => decide (x.profit = p)) =
      (processGroups
          (buildGroups resolve (filledOrders orders date))).1.filter
        (fun x => decide (x.profit = p)) := by
  have hrep : buildReport resolve orders date = rep := by
    rw [analyze_trading_profit] at h
    injection h
  have hres : rep.ticker_results =
      sortResults
        (processGroups (buildGroups resolve (filledOrders orders date))).1 := by
    rw [← hrep]
    rfl
  rw [hres]
  exact ⟨List.sorted_insertionSort resGE _,
    List.perm_insertionSort resGE _, fun p => filter_sortResults _ p⟩

theorem ticker_results_sorted_witness :
    List.Sorted resGE
      (buildReport (fun _ => "AAPL") demoOrders "2024-01-02").ticker_results ∧
    (buildReport (fun _ => "AAPL") demoOrders
        "2024-01-02").ticker_results.Perm
      (processGroups (buildGroups (fun _ => "AAPL")
        (filledOrders demoOrders "2024-01-02"))).1 ∧
    ∀ p, (buildReport (fun _ => "AAPL") demoOrders
        "2024-01-02").ticker_results.filter
          (fun x => decide (x.profit = p)) =
      (processGroups (buildGroups (fun _ => "AAPL")
          (filledOrders demoOrders "2024-01-02"))).1.filter
        (fun x => decide (x.profit = p)) :=
  ticker_results_sorted (fun _ => "AAPL") demoOrders "2024-01-02" _ rfl

end RBMCP

namespace RBMCP

/-!  Conservation of quantities through the matching loop.  -/

/-- Total original quantity of a record list (`buy_shares`/`sell_shares`). -/
def sumQty (l : List TradeRecord) : ℚ := (l.map (fun r => r.quantity)).sum

/-- Total remaining quantity of a record list. -/
def sumRem (l : List TradeRecord) : ℚ :=
  (l.map (fun r => r.remaining_qty)).sum

/-- Total matched quantity of a pair list (`matched_shares`). -/
def sumMatched (ps : List MatchedPair) : ℚ :=
  (ps.map (fun m => m.quantity)).sum

/-- How matching may evolve one record: the original quantity is
untouched, the remaining quantity only decreases, and it never drops below
`min 0` of its starting value (each decrement is by at most the remaining
quantity itself). -/
def Consumed (a b : TradeRecord) : Prop :=
  b.quantity = a.quantity ∧ b.remaining_qty ≤ a.remaining_qty ∧
    min 0 a.remaining_qty ≤ b.remaining_qty

theorem consumed_refl (a : TradeRecord) : Consumed a a :=
  ⟨rfl, le_refl _, min_le_right _ _⟩

theorem consumed_trans {a b c : TradeRecord} (h1 : Consumed a b)
    (h2 : Consumed b c) : Consumed a c := by
  refine ⟨h1.1 ▸ h2.1, le_trans h2.2.1 h1.2.1, ?_⟩
  have : min 0 a.remaining_qty ≤ min 0 b.remaining_qty :=
    le_min (min_le_left _ _) h1.2.2
  exact le_trans this h2.2.2

theorem forall2_consumed_refl (l : List TradeRecord) :
    List.Forall₂ Consumed l l := by
  induction l with
  | nil => exact List.Forall₂.nil
  | cons a t ih => exact List.Forall₂.cons (consumed_refl a) ih

theorem forall2_consumed_trans {l1 l2 l3 : List TradeRecord}
    (h1 : List.Forall₂ Consumed l1 l2) (h2 : List.Forall₂ Consumed l2 l3) :
    List.Forall₂ Consumed l1 l3 := by
  induction h1 generalizing l3 with
  | nil => cases h2; exact List.Forall₂.nil
  | cons hab htl ih =>
    cases h2 with
    | cons hbc htl' => exact List.Forall₂.cons (consumed_trans hab hbc) (ih htl')

theorem forall2_consumed_set {l : List TradeRecord} {i : Nat}
    {sell x : TradeRecord} (hget : l.get? i = some sell)
    (hc : Consumed sell x) : List.Forall₂ Consumed l (l.set i x) := by
  induction l generalizing i with
  | nil => simp [List.get?] at hget
  | cons a t ih =>
    cases i with
    | zero =>
      rw [List.get?] at hget
      obtain rfl : a = sell := by injection hget
      exact List.Forall₂.cons hc (forall2_consumed_refl t)
    | succ j =>
      rw [List.get?] at hget
      exact List.Forall₂.cons (consumed_refl a) (ih hget)

theorem forall2_sumQty_eq {l l' : List TradeRecord}
    (h : List.Forall₂ Consumed l l') : sumQty l' = sumQty l := by
  induction h with
  | nil => rfl
  | cons hab _ ih =>
    simp only [sumQty, List.map_cons, List.sum_cons] at ih ⊢
    rw [hab.1, ih]

theorem forall2_sumRem_le {l l' : List TradeRecord}
    (h : List.Forall₂ Consumed l l') : sumRem l' ≤ sumRem l := by
  induction h with
  | nil => exact le_refl _
  | cons hab _ ih =>
    simp only [sumRem, List.map_cons, List.sum_cons] at ih ⊢
    exact add_le_add hab.2.1 ih

theorem forall2_rem_bounds {l l' : List TradeRecord}
    (h : List.Forall₂ Consumed l l')
    (hl : ∀ a ∈ l, a.remaining_qty = a.quantity ∧ 0 ≤ a.quantity) :
    ∀ b ∈ l', 0 ≤ b.remaining_qty ∧ b.remaining_qty ≤ b.quantity := by
  induction h with
  | nil => intro b hb; cases hb
  | cons hab htl ih =>
    rename_i a b t t'
    intro x hx
    rcases List.mem_cons.mp hx with hxb | hxt
    · obtain ⟨hra, hqa⟩ := hl a (List.mem_cons_self a t)
      constructor
      · have : min 0 a.remaining_qty = 0 := by
          rw [hra]
          exact min_eq_left hqa
        rw [hxb]
        exact this ▸ hab.2.2
      · rw [hxb, hab.1, ← hra]
        exact hab.2.1
    · exact ih (fun a' ha' => hl a' (List.mem_cons_of_mem _ ha')) x hxt

theorem sumRem_set {l : List TradeRecord} {i : Nat} {sell : TradeRecord}
    (x : TradeRecord) (hget : l.get? i = some sell) :
    sumRem (l.set i x) + sell.remaining_qty =
      sumRem l + x.remaining_qty := by
  induction l generalizing i with
  | nil => simp [List.get?] at hget
  | cons a t ih =>
    cases i with
    | zero =>
      rw [List.get?] at hget
      obtain rfl : a = sell := by injection hget
      simp only [List.set, sumRem, List.map_cons, List.sum_cons]
      ring
    | succ j =>
      rw [List.get?] at hget
      simp only [List.set, sumRem, List.map_cons, List.sum_cons]
      have := ih hget
      simp only [sumRem] at this
      linarith

theorem sumRem_nonneg {l : List TradeRecord}
    (h : ∀ x ∈ l, 0 ≤ x.remaining_qty) : 0 ≤ sumRem l := by
  induction l with
  | nil => exact le_refl _
  | cons a t ih =>
    simp only [sumRem, List.map_cons, List.sum_cons]
    have ha := h a (List.mem_cons_self a t)
    have ht := ih (fun x hx => h x (List.mem_cons_of_mem _ hx))
    simp only [sumRem] at ht
    linarith

end RBMCP

namespace RBMCP

theorem matchLoop_invariant :
    ∀ (fuel : Nat) (buy : TradeRecord) (buyQty : ℚ)
      (sells : List TradeRecord) (pairs : List MatchedPair),
      buyQty = buy.remaining_qty →
      Consumed buy (matchLoop fuel buy buyQty sells pairs).1 ∧
      List.Forall₂ Consumed sells
        (matchLoop fuel buy buyQty sells pairs).2.1 ∧
      sumMatched (matchLoop fuel buy buyQty sells pairs).2.2 +
          (matchLoop fuel buy buyQty sells pairs).1.remaining_qty =
        sumMatched pairs + buy.remaining_qty ∧
      sumMatched (matchLoop fuel buy buyQty sells pairs).2.2 +
          sumRem (matchLoop fuel buy buyQty sells pairs).2.1 =
        sumMatched pairs + sumRem sells := by
  intro fuel
  induction fuel with
  | zero =>
    intro buy buyQty sells pairs _
    exact ⟨consumed_refl buy, forall2_consumed_refl sells, rfl, rfl⟩
  | succ fuel ih =>
    intro buy buyQty sells pairs hq
    by_cases hcond : 0 < buyQty ∧
        (sells.any fun s => decide (0 < s.remaining_qty)) = true
    · cases hsel : selectSell sells buy.created_at buy.price with
      | none =>
        have hR : matchLoop (fuel + 1) buy buyQty sells pairs =
            (buy, sells, pairs) := by
          rw [matchLoop, if_pos hcond, hsel]
        rw [hR]
        exact ⟨consumed_refl buy, forall2_consumed_refl sells, rfl, rfl⟩
      | some idx =>
        cases hget : sells.get? idx with
        | none =>
          have hR : matchLoop (fuel + 1) buy buyQty sells pairs =
              (buy, sells, pairs) := by
            rw [matchLoop, if_pos hcond, hsel]
            dsimp only
            rw [hget]
          rw [hR]
          exact ⟨consumed_refl buy, forall2_consumed_refl sells, rfl, rfl⟩
        | some sell =>
          by_cases hmq : 0 < min buyQty sell.remaining_qty
          · set mq := min buyQty sell.remaining_qty with hmqdef
            set buy' : TradeRecord :=
              { buy with remaining_qty := buy.remaining_qty - mq }
              with hbuydef
            set sell' : TradeRecord :=
              { sell with remaining_qty := sell.remaining_qty - mq }
              with hselldef
            have hR : matchLoop (fuel + 1) buy buyQty sells pairs =
                matchLoop fuel buy' (buyQty - mq) (sells.set idx sell')
                  (pairs ++ [mkPair buy sell mq]) := by
              rw [matchLoop, if_pos hcond, hsel]
              dsimp only
              rw [hget]
              dsimp only
              rw [if_pos hmq]
            rw [hR]
            have hmq_le_rem : mq ≤ buy.remaining_qty :=
              le_trans (min_le_left _ _) (le_of_eq hq)
            have hmq_le_srem : mq ≤ sell.remaining_qty := min_le_right _ _
            have hq' : buyQty - mq = buy'.remaining_qty := by
              rw [hbuydef]
              show buyQty - mq = buy.remaining_qty - mq
              rw [hq]
            obtain ⟨ih1, ih2, ih3, ih4⟩ :=
              ih buy' (buyQty - mq) (sells.set idx sell')
                (pairs ++ [mkPair buy sell mq]) hq'
            have hcb : Consumed buy buy' := by
              refine ⟨rfl, ?_, ?_⟩
              · show buy.remaining_qty - mq ≤ buy.remaining_qty
                linarith [le_of_lt hmq]
              · show min 0 buy.remaining_qty ≤ buy.remaining_qty - mq
                have h0 : (0 : ℚ) ≤ buy.remaining_qty - mq := by linarith
                exact le_trans (min_le_left _ _) h0
            have hcs : Consumed sell sell' := by
              refine ⟨rfl, ?_, ?_⟩
              · show sell.remaining_qty - mq ≤ sell.remaining_qty
                linarith [le_of_lt hmq]
              · show min 0 sell.remaining_qty ≤ sell.remaining_qty - mq
                have h0 : (0 : ℚ) ≤ sell.remaining_qty - mq := by linarith
                exact le_trans (min_le_left _ _) h0
            have hsm : sumMatched (pairs ++ [mkPair buy sell mq]) =
                sumMatched pairs + mq := by
              simp [sumMatched, mkPair]
            have hss := sumRem_set sell' hget
            have hbrem : buy'.remaining_qty = buy.remaining_qty - mq := rfl
            have hsrem : sell'.remaining_qty = sell.remaining_qty - mq := rfl
            refine ⟨consumed_trans hcb ih1,
              forall2_consumed_trans (forall2_consumed_set hget hcs) ih2,
              ?_, ?_⟩
            · rw [hsm, hbrem] at ih3
              linarith
            · rw [hsm] at ih4
              rw [hsrem] at hss
              linarith
          · have hR : matchLoop (fuel + 1) buy buyQty sells pairs =
                matchLoop fuel buy buyQty sells pairs := by
              rw [matchLoop, if_pos hcond, hsel]
              dsimp only
              rw [hget]
              dsimp only
              rw [if_neg hmq]
            rw [hR]
            exact ih buy buyQty sells pairs hq
    · have hR : matchLoop (fuel + 1) buy buyQty sells pairs =
          (buy, sells, pairs) := by
        rw [matchLoop, if_neg hcond]
      rw [hR]
      exact ⟨consumed_refl buy, forall2_consumed_refl sells, rfl, rfl⟩

end RBMCP

namespace RBMCP

theorem processBuys_invariant :
    ∀ (buys sells : List TradeRecord) (pairs : List MatchedPair),
      List.Forall₂ Consumed buys (processBuys buys sells pairs).1 ∧
      List.Forall₂ Consumed sells (processBuys buys sells pairs).2.1 ∧
      sumMatched (processBuys buys sells pairs).2.2 +
          sumRem (processBuys buys sells pairs).1 =
        sumMatched pairs + sumRem buys ∧
      sumMatched (processBuys buys sells pairs).2.2 +
          sumRem (processBuys buys sells pairs).2.1 =
        sumMatched pairs + sumRem sells := by
  intro buys
  induction buys with
  | nil =>
    intro sells pairs
    exact ⟨List.Forall₂.nil, forall2_consumed_refl sells, rfl, rfl⟩
  | cons b rest ih =>
    intro sells pairs
    obtain ⟨m1, m2, m3, m4⟩ := matchLoop_invariant (sells.length + 1) b
      b.remaining_qty sells pairs rfl
    obtain ⟨i1, i2, i3, i4⟩ := ih
      (matchLoop (sells.length + 1) b b.remaining_qty sells pairs).2.1
      (matchLoop (sells.length + 1) b b.remaining_qty sells pairs).2.2
    have hcons1 : sumRem
        ((matchLoop (sells.length + 1) b b.remaining_qty sells pairs).1 ::
          (processBuys rest
            (matchLoop (sells.length + 1) b b.remaining_qty sells
              pairs).2.1
            (matchLoop (sells.length + 1) b b.remaining_qty sells
              pairs).2.2).1) =
        (matchLoop (sells.length + 1) b b.remaining_qty sells
          pairs).1.remaining_qty +
        sumRem (processBuys rest
          (matchLoop (sells.length + 1) b b.remaining_qty sells pairs).2.1
          (matchLoop (sells.length + 1) b b.remaining_qty sells
            pairs).2.2).1 := by
      simp [sumRem]
    have hcons2 : sumRem (b :: rest) = b.remaining_qty + sumRem rest := by
      simp [sumRem]
    refine ⟨List.Forall₂.cons m1 i1, forall2_consumed_trans m2 i2, ?_, ?_⟩
    · show sumMatched (processBuys rest _ _).2.2 +
        sumRem ((matchLoop (sells.length + 1) b b.remaining_qty sells
          pairs).1 :: (processBuys rest _ _).1) =
        sumMatched pairs + sumRem (b :: rest)
      rw [hcons1, hcons2]
      linarith
    · show sumMatched (processBuys rest _ _).2.2 +
        sumRem (processBuys rest _ _).2.1 =
        sumMatched pairs + sumRem sells
      linarith

end RBMCP

namespace RBMCP

theorem sumRem_eq_sumQty {l : List TradeRecord}
    (h : ∀ x ∈ l, x.remaining_qty = x.quantity) : sumRem l = sumQty l := by
  unfold sumRem sumQty
  induction l with
  | nil => rfl
  | cons a t ih =>
    simp only [List.map_cons, List.sum_cons]
    rw [h a (List.mem_cons_self a t),
      ih (fun x hx => h x (List.mem_cons_of_mem _ hx))]

theorem parseRecord_fresh (o : RawOrder) (r : TradeRecord)
    (h : parseRecord o = some r) : r.remaining_qty = r.quantity := by
  rw [parseRecord] at h
  rcases hp : parseNum o.average_price with _ | price
  · rw [hp] at h
    exact absurd h (by simp)
  · rw [hp] at h
    rcases hqy : parseNum o.quantity with _ | quantity
    · rw [hqy] at h
      exact absurd h (by simp)
    · rw [hqy] at h
      rcases hf : sumFees o.executions with _ | fees
      · rw [hf] at h
        exact absurd h (by simp)
      · rw [hf] at h
        simp at h
        rw [← h]

/-- C5: for a ticker group whose records are fresh (remaining quantity
equal to a nonnegative original quantity, as `parseRecord` always
produces), the matched shares never exceed `min(buy_shares, sell_shares)`,
and every individual record ends matching with
`0 ≤ remaining_qty ≤ quantity`, i.e. no record is over-consumed. -/
theorem conservation (t : String) (g : Group)
    (buys' sells' : List TradeRecord) (pairs : List MatchedPair)
    (hmt : matchTicker g = (buys', sells', pairs))
    (hb : ∀ b ∈ g.buys, b.remaining_qty = b.quantity ∧ 0 ≤ b.quantity)
    (hs : ∀ s ∈ g.sells, s.remaining_qty = s.quantity ∧ 0 ≤ s.quantity) :
    (mkTickerResult t buys' sells' pairs).matched_shares ≤
      min (mkTickerResult t buys' sells' pairs).buy_shares
        (mkTickerResult t buys' sells' pairs).sell_shares ∧
    (∀ b' ∈ buys', 0 ≤ b'.remaining_qty ∧ b'.remaining_qty ≤ b'.quantity) ∧
    (∀ s' ∈ sells', 0 ≤ s'.remaining_qty ∧ s'.remaining_qty ≤ s'.quantity) ∧
    (∀ (o : RawOrder) (r : TradeRecord), parseRecord o = some r →
      r.remaining_qty = r.quantity) := by
  have hb' : ∀ b ∈ sortBuys g.buys,
      b.remaining_qty = b.quantity ∧ 0 ≤ b.quantity :=
    fun b hbm => hb b ((List.perm_insertionSort buyLE g.buys).subset hbm)
  have hs' : ∀ s ∈ sortSells g.sells,
      s.remaining_qty = s.quantity ∧ 0 ≤ s.quantity :=
    fun s hsm => hs s ((List.perm_insertionSort sellGE g.sells).subset hsm)
  obtain ⟨p1, p2, p3, p4⟩ :=
    processBuys_invariant (sortBuys g.buys) (sortSells g.sells) []
  rw [matchTicker] at hmt
  rw [hmt] at p1 p2 p3 p4
  have hbounds_b := forall2_rem_bounds p1 hb'
  have hbounds_s := forall2_rem_bounds p2 hs'
  have hrem_b_nonneg : 0 ≤ sumRem buys' :=
    sumRem_nonneg (fun x hx => (hbounds_b x hx).1)
  have hrem_s_nonneg : 0 ≤ sumRem sells' :=
    sumRem_nonneg (fun x hx => (hbounds_s x hx).1)
  have hq_b : sumQty buys' = sumQty (sortBuys g.buys) := forall2_sumQty_eq p1
  have hq_s : sumQty sells' = sumQty (sortSells g.sells) :=
    forall2_sumQty_eq p2
  have hrq_b : sumRem (sortBuys g.buys) = sumQty (sortBuys g.buys) :=
    sumRem_eq_sumQty (fun x hx => (hb' x hx).1)
  have hrq_s : sumRem (sortSells g.sells) = sumQty (sortSells g.sells) :=
    sumRem_eq_sumQty (fun x hx => (hs' x hx).1)
  have hzero : sumMatched ([] : List MatchedPair) = 0 := rfl
  have hshares : (mkTickerResult t buys' sells' pairs).matched_shares =
      sumMatched pairs := rfl
  have hbshares : (mkTickerResult t buys' sells' pairs).buy_shares =
      sumQty buys' := rfl
  have hsshares : (mkTickerResult t buys' sells' pairs).sell_shares =
      sumQty sells' := rfl
  refine ⟨?_, hbounds_b, hbounds_s, parseRecord_fresh⟩
  rw [hshares, hbshares, hsshares]
  rw [hzero] at p3 p4
  refine le_min ?_ ?_
  · rw [hq_b]
    linarith
  · rw [hq_s]
    linarith

end RBMCP

namespace RBMCP

/-- A one-buy/one-sell group with a partial fill: buy 2 shares at 100,
one eligible sell of 1 share at 101. -/
def demoGroup : Group :=
  ⟨[⟨some "B1", 100, 2, 2, 0, none, "A"⟩],
   [⟨some "S1", 101, 1, 1, 0, none, "B"⟩]⟩

theorem conservation_witness :
    (mkTickerResult "TST"
        [⟨some "B1", 100, 2, 1, 0, none, "A"⟩]
        [⟨some "S1", 101, 1, 0, 0, none, "B"⟩]
        [⟨some "B1", some "S1", 1, 100, 101, 1, 0⟩]).matched_shares ≤
      min (mkTickerResult "TST"
        [⟨some "B1", 100, 2, 1, 0, none, "A"⟩]
        [⟨some "S1", 101, 1, 0, 0, none, "B"⟩]
        [⟨some "B1", some "S1", 1, 100, 101, 1, 0⟩]).buy_shares
        (mkTickerResult "TST"
        [⟨some "B1", 100, 2, 1, 0, none, "A"⟩]
        [⟨some "S1", 101, 1, 0, 0, none, "B"⟩]
        [⟨some "B1", some "S1", 1, 100, 101, 1, 0⟩]).sell_shares ∧
    (∀ b' ∈ [(⟨some "B1", 100, 2, 1, 0, none, "A"⟩ : TradeRecord)],
      0 ≤ b'.remaining_qty ∧ b'.remaining_qty ≤ b'.quantity) ∧
    (∀ s' ∈ [(⟨some "S1", 101, 1, 0, 0, none, "B"⟩ : TradeRecord)],
      0 ≤ s'.remaining_qty ∧ s'.remaining_qty ≤ s'.quantity) ∧
    (∀ (o : RawOrder) (r : TradeRecord), parseRecord o = some r →
      r.remaining_qty = r.quantity) := by
  have hAB : ("A" : String) < "B" := by rw [String.lt_iff_toList_lt]; decide
  refine conservation "TST" demoGroup _ _ _ ?_ ?_ ?_
  · norm_num [matchTicker, demoGroup, sortBuys, sortSells,
      List.insertionSort, List.orderedInsert, processBuys, matchLoop,
      selectSell, buildDiffs, eligible, List.enum, List.enumFrom, mkPair,
      round2, round_eq, hAB, List.filter]
  · intro b hbm
    simp only [demoGroup, List.mem_singleton] at hbm
    rw [hbm]
    norm_num
  · intro s hsm
    simp only [demoGroup, List.mem_singleton] at hsm
    rw [hsm]
    norm_num

end RBMCP
